import Mathlib

/-!
Verification of the `pqueue` priority-queue service: a shallow embedding of
the core data structure (`src/pqueue/src/lib.rs`), the wire protocol codec
(`src/pqueue_server/src/protocol.rs`) and the command dispatcher
(`src/pqueue_server/src/main.rs`), together with proofs of the behavioural
properties stated in the specification.

The Rust `BTreeMap<i64, VecDeque<Arc<T>>>` is modelled as an association
list sorted in strictly descending key order (so the head entry is the one
`iter().next_back()` would yield), and the `HashMap<Arc<T>, i64>` as an
association list with unique keys.  Machine integers (`i64`) are modelled
as `Int`, with the two's-complement wrap made explicit at the one place the
source performs arithmetic on scores (`new_score += current_score`).
-/

/-- Identifiers are opaque strings, exactly as the server instantiates
`PQueue::<String>`. -/
abbrev ItemId := String

/-- Scores are signed 64-bit integers, modelled as `Int` with explicit
wrap-around where the source adds them. -/
abbrev Score := Int

/-- Smallest `i64` value. -/
def i64Min : Int := -(2 ^ 63)

/-- Largest `i64` value. -/
def i64Max : Int := 2 ^ 63 - 1

/-- `n` is representable as an `i64`. -/
def i64InRange (n : Int) : Prop := i64Min ≤ n ∧ n ≤ i64Max

instance (n : Int) : Decidable (i64InRange n) := by
  unfold i64InRange; infer_instance

/-- Two's-complement wrap of an integer into the `i64` range: the result of
a Rust release-mode `i64` addition whose mathematical value is `n`. -/
def wrapI64 (n : Int) : Int := (n + 2 ^ 63) % 2 ^ 64 - 2 ^ 63

/-- Lookup in the by-id map (`HashMap::get`). -/
def lookupId : List (ItemId × Score) → ItemId → Option Score
  | [], _ => none
  | (k, v) :: rest, i => if k = i then some v else lookupId rest i

/-- Insert-or-replace in the by-id map (`HashMap::insert`). -/
def insertId (i : ItemId) (s : Score) : List (ItemId × Score) → List (ItemId × Score)
  | [] => [(i, s)]
  | (k, v) :: rest => if k = i then (i, s) :: rest else (k, v) :: insertId i s rest

/-- Remove a key from the by-id map (`HashMap::remove`). -/
def removeId (i : ItemId) : List (ItemId × Score) → List (ItemId × Score)
  | [] => []
  | (k, v) :: rest => if k = i then rest else (k, v) :: removeId i rest

/-- Lookup of the pool stored at a score (`BTreeMap::get`). -/
def lookupScore : List (Score × List ItemId) → Score → Option (List ItemId)
  | [], _ => none
  | (k, p) :: rest, s => if k = s then some p else lookupScore rest s

/-- `scores.entry(new_score).or_default().push_back(item)` on the by-score
map kept in strictly descending key order: append `i` at the tail of the
pool at `s`, creating the pool if absent. -/
def insertScorePush (s : Score) (i : ItemId) : List (Score × List ItemId) → List (Score × List ItemId)
  | [] => [(s, [i])]
  | (k, p) :: rest =>
    if s > k then (s, [i]) :: (k, p) :: rest
    else if s = k then (k, p ++ [i]) :: rest
    else (k, p) :: insertScorePush s i rest

/-- Replace the pool stored at key `s` (in-place mutation through
`BTreeMap::get_mut`). -/
def setScore (s : Score) (newPool : List ItemId) : List (Score × List ItemId) → List (Score × List ItemId)
  | [] => []
  | (k, p) :: rest => if k = s then (k, newPool) :: rest else (k, p) :: setScore s newPool rest

/-- Remove the entry at key `s` (`BTreeMap::remove`). -/
def removeScore (s : Score) : List (Score × List ItemId) → List (Score × List ItemId)
  | [] => []
  | (k, p) :: rest => if k = s then rest else (k, p) :: removeScore s rest

/-- The counters of `PQueueStatsTracker` (the `start_time` wall-clock field
is outside the embedding). -/
structure PQueueStatsTracker where
  updates : Int
  items : Int
  pools : Int
deriving DecidableEq

/-- The core `PriorityQueue<T>` state: the by-score map (descending order,
head entry = maximum score), the by-id map, and the stats counters. -/
structure PriorityQueue where
  scores : List (Score × List ItemId)
  items : List (ItemId × Score)
  stats : PQueueStatsTracker
deriving DecidableEq

/-- The fresh queue built by `PQueue::new`. -/
def PriorityQueue.empty : PriorityQueue :=
  { scores := [], items := [], stats := { updates := 0, items := 0, pools := 0 } }

/-- `PriorityQueue::remove_item`: drop `item` from the pool at `score`,
deleting the pool (and decrementing `stats.pools`) if it becomes empty. -/
def PriorityQueue.removeItem (q : PriorityQueue) (item : ItemId) (score : Score) : PriorityQueue :=
  match lookupScore q.scores score with
  | none => q
  | some pool =>
    let pool' := pool.filter (fun i => i != item)
    if pool' = [] then
      { q with scores := removeScore score q.scores,
               stats := { q.stats with pools := q.stats.pools - 1 } }
    else
      { q with scores := setScore score pool' q.scores }

/-- `PriorityQueue::update`: additive re-score (or insert) of `item`,
returning `(old_score, new_score)` and the new state.  The i64 addition
`new_score += current_score` is modelled with an explicit wrap. -/
def PriorityQueue.update (q : PriorityQueue) (item : ItemId) (newScore : Score) :
    (Option Score × Score) × PriorityQueue :=
  let q0 : PriorityQueue := { q with stats := { q.stats with updates := q.stats.updates + 1 } }
  let step : Option Score × Score × PriorityQueue :=
    match lookupId q0.items item with
    | some currentScore =>
      (some currentScore, wrapI64 (newScore + currentScore), q0.removeItem item currentScore)
    | none =>
      (none, newScore, { q0 with stats := { q0.stats with items := q0.stats.items + 1 } })
  let oldScore := step.1
  let ns := step.2.1
  let q1 := step.2.2
  let q2 : PriorityQueue := { q1 with items := insertId item ns q1.items }
  let q3 : PriorityQueue :=
    if (lookupScore q2.scores ns).isSome then q2
    else { q2 with stats := { q2.stats with pools := q2.stats.pools + 1 } }
  ((oldScore, ns), { q3 with scores := insertScorePush ns item q3.scores })

/-- `PriorityQueue::peek`: head of the pool at the maximum score. -/
def PriorityQueue.peek (q : PriorityQueue) : Option ItemId :=
  match q.scores with
  | [] => none
  | (_, pool) :: _ => pool.head?

/-- `PriorityQueue::next`: pop the head of the pool at the maximum score,
with the source's defensive branch for an empty pool at the top. -/
def PriorityQueue.next (q : PriorityQueue) : Option ItemId × PriorityQueue :=
  match q.scores with
  | [] => (none, q)
  | (score, pool) :: rest =>
    match pool with
    | [] =>
      (none, { q with scores := rest, stats := { q.stats with pools := q.stats.pools - 1 } })
    | item :: poolTail =>
      let q1 : PriorityQueue :=
        if poolTail = [] then
          { q with scores := rest, stats := { q.stats with pools := q.stats.pools - 1 } }
        else
          { q with scores := (score, poolTail) :: rest }
      (some item, { q1 with items := removeId item q1.items,
                            stats := { q1.stats with items := q1.stats.items - 1 } })

/-- `PriorityQueue::score`: current score of `item`, if present. -/
def PriorityQueue.score (q : PriorityQueue) (item : ItemId) : Option Score :=
  lookupId q.items item

/-- All `(item, score)` pairs stored in the by-score map, in pool order. -/
def flatPairs : List (Score × List ItemId) → List (ItemId × Score)
  | [] => []
  | (s, pool) :: rest => pool.map (fun i => (i, s)) ++ flatPairs rest

/-- Total number of entries summed over all pools. -/
def sumPoolSizes (q : PriorityQueue) : Nat :=
  (q.scores.map (fun p => p.2.length)).sum

/-- The decimal digit character for `n % 10`-style values below ten. -/
def digitChar (n : Nat) : Char :=
  match n with
  | 0 => '0'
  | 1 => '1'
  | 2 => '2'
  | 3 => '3'
  | 4 => '4'
  | 5 => '5'
  | 6 => '6'
  | 7 => '7'
  | 8 => '8'
  | _ => '9'

/-- Fuelled digit accumulator: prepends the decimal digits of `n` to `acc`.
The fuel `n + 1` always suffices since `n` has at most `n + 1` digits. -/
def natDigitsGo : Nat → Nat → List Char → List Char
  | 0, _, acc => acc
  | fuel + 1, n, acc =>
    let acc' := digitChar (n % 10) :: acc
    if n < 10 then acc' else natDigitsGo fuel (n / 10) acc'

/-- Decimal rendering of a natural number. -/
def natStrChars (n : Nat) : List Char := natDigitsGo (n + 1) n []

/-- Decimal rendering of an `i64`, as Rust's `Display` prints it. -/
def intStrChars (n : Int) : List Char :=
  if n < 0 then '-' :: natStrChars (-n).toNat else natStrChars n.toNat

/-- Decimal rendering of an `i64` as a string. -/
def intStr (n : Int) : String := String.mk (intStrChars n)

/-- Rust's `char::is_whitespace` (the Unicode `White_Space` property). -/
def isRustWhitespace (c : Char) : Bool :=
  (9 ≤ c.toNat && c.toNat ≤ 13) || c.toNat = 32 || c.toNat = 0x85 || c.toNat = 0xA0 ||
  c.toNat = 0x1680 || (0x2000 ≤ c.toNat && c.toNat ≤ 0x200A) || c.toNat = 0x2028 ||
  c.toNat = 0x2029 || c.toNat = 0x202F || c.toNat = 0x205F || c.toNat = 0x3000

/-- Accumulator for `split_whitespace`: `acc` holds the characters of the
current token in reverse. -/
def splitWsChars : List Char → List Char → List String
  | [], acc => if acc = [] then [] else [String.mk acc.reverse]
  | c :: cs, acc =>
    if isRustWhitespace c then
      if acc = [] then splitWsChars cs []
      else String.mk acc.reverse :: splitWsChars cs []
    else splitWsChars cs (c :: acc)

/-- Rust's `str::split_whitespace`, collected into a list of tokens. -/
def splitWhitespaceStr (s : String) : List String := splitWsChars s.toList []

/-- ASCII lower-casing of one character (`u8::to_ascii_lowercase`). -/
def asciiLower (c : Char) : Char :=
  if 65 ≤ c.toNat && c.toNat ≤ 90 then Char.ofNat (c.toNat + 32) else c

/-- Rust's `str::eq_ignore_ascii_case`. -/
def eqIgnoreAsciiCase (a b : String) : Bool :=
  a.toList.map asciiLower == b.toList.map asciiLower

/-- Is `c` an ASCII decimal digit? -/
def isAsciiDigit (c : Char) : Bool := 48 ≤ c.toNat && c.toNat ≤ 57

/-- Numeric value of an ASCII digit character. -/
def digitVal (c : Char) : Nat := c.toNat - 48

/-- Rust's `str::parse::<i64>`: an optional `+`/`-` sign followed by one or
more ASCII digits, rejected when the value leaves the `i64` range. -/
def parseI64 (s : String) : Option Int :=
  let cs := s.toList
  let signDigits : Int × List Char :=
    match cs with
    | '+' :: rest => (1, rest)
    | '-' :: rest => (-1, rest)
    | _ => (1, cs)
  let sign := signDigits.1
  let digits := signDigits.2
  if digits = [] then none
  else if digits.all isAsciiDigit then
    let v : Int := sign * (digits.foldl (fun acc c => acc * 10 + digitVal c) 0 : Nat)
    if i64InRange v then some v else none
  else none

/-- The `Command` enum of the protocol module. -/
inductive Command where
  | update (itemId : String) (value : Int)
  | next
  | peek
  | score (itemId : String)
  | info
  | error (msg : String)
  | help
deriving DecidableEq

/-- The token-level body of `Command::from`: the source's `match` over the
slice of whitespace-split tokens, with its guard order preserved. -/
def commandFromTokens : List String → Command
  | [command, itemId, value] =>
    if eqIgnoreAsciiCase command "UPDATE" then
      match parseI64 value with
      | some v => Command.update itemId v
      | none => Command.error "Invalid value for UPDATE"
    else Command.error "Invalid command or arguments"
  | [command] =>
    if eqIgnoreAsciiCase command "NEXT" then Command.next
    else if eqIgnoreAsciiCase command "PEEK" then Command.peek
    else if eqIgnoreAsciiCase command "INFO" then Command.info
    else if eqIgnoreAsciiCase command "HELP" then Command.help
    else Command.error "Invalid command or arguments"
  | [command, itemId] =>
    if eqIgnoreAsciiCase command "SCORE" then Command.score itemId
    else Command.error "Invalid command or arguments"
  | _ => Command.error "Invalid command or arguments"

/-- `impl From<&str> for Command`. -/
def commandFrom (s : String) : Command := commandFromTokens (splitWhitespaceStr s)

/-- The specification's parsing table: each verb with the number of tokens
it takes beyond the verb itself. -/
def specArity : List (String × Nat) :=
  [("UPDATE", 2), ("NEXT", 0), ("PEEK", 0), ("SCORE", 1), ("INFO", 0), ("HELP", 0)]

/-- The parser as the specification describes it: the first token is
matched case-insensitively against the verb table, arity is checked, the
`UPDATE` value must be a valid int64, and any mismatch yields the
corresponding error command. -/
def specCommandOfLine (tokens : List String) : Command :=
  match tokens with
  | [] => Command.error "Invalid command or arguments"
  | verb :: args =>
    match specArity.find? (fun e => eqIgnoreAsciiCase verb e.1) with
    | none => Command.error "Invalid command or arguments"
    | some (v, ar) =>
      if args.length = ar then
        if v = "UPDATE" then
          match args with
          | [itemId, value] =>
            match parseI64 value with
            | some n => Command.update itemId n
            | none => Command.error "Invalid value for UPDATE"
          | _ => Command.error "Invalid command or arguments"
        else if v = "NEXT" then Command.next
        else if v = "PEEK" then Command.peek
        else if v = "SCORE" then
          match args with
          | [itemId] => Command.score itemId
          | _ => Command.error "Invalid command or arguments"
        else if v = "INFO" then Command.info
        else Command.help
      else Command.error "Invalid command or arguments"

/-- The `Response` enum; the `Stats` payload is flattened to the fields its
formatting uses (`uptime.num_seconds()`, version and the three counters). -/
inductive Response where
  | ok
  | score (n : Int)
  | item (s : String)
  | error (msg : String)
  | stats (uptimeSecs : Int) (version : String) (updates : Int) (items : Int) (pools : Int)
  | help
deriving DecidableEq
/-- The exact HELP text of `Response::fmt`, after resolving the Rust
string-literal line continuations in the source. -/
def helpText : String :=
  "USAGE (note: commands are case insensitive, identifiers are case sensitive): \r\n" ++
  "+UPDATE <identifier> <score> [Updates the priority of <identifier> by adding <score> to its priority or inserts it with priority of <score>]\r\n" ++
  " +NEXT                        [Pops the highest priority item (item that has had that priority the longest if multiple) off the queue]\r\n" ++
  " +SCORE <identifier>          [Fetch the current priority score for <identifier>]\r\n" ++
  " +INFO                        [Fetch statistics about the server]\r\n" ++
  " +HELP                        [Get this help]\r\n"

/-- `impl fmt::Display for Response`: the exact wire bytes of each
response. -/
def renderResponse : Response → String
  | Response.ok => "+OK\r\n"
  | Response.score n => "+" ++ intStr n ++ "\r\n"
  | Response.item s => "+" ++ s ++ "\r\n"
  | Response.error msg => "-" ++ msg ++ "\r\n"
  | Response.stats uptimeSecs version updates items pools =>
    "+INFO\r\n+uptime:" ++ intStr uptimeSecs ++ "\r\n+version:" ++ version ++
    "\r\n+updates:" ++ intStr updates ++ "\r\n+items:" ++ intStr items ++
    "\r\n+pools:" ++ intStr pools ++ "\r\n"
  | Response.help => helpText

/-- `process_command` from the server: dispatch of a parsed command against
the queue.  The wall-clock uptime and compile-time version that the `INFO`
branch snapshots are passed in as parameters, since neither is part of the
queue state. -/
def processCommand (uptimeSecs : Int) (version : String) (c : Command) (q : PriorityQueue) :
    Response × PriorityQueue :=
  match c with
  | Command.update itemId value => (Response.ok, (q.update itemId value).2)
  | Command.next =>
    let r := q.next
    (match r.1 with
     | none => Response.item "-1"
     | some it => Response.item it, r.2)
  | Command.peek =>
    (match q.peek with
     | none => Response.item "-1"
     | some it => Response.item it, q)
  | Command.score itemId =>
    (match q.score itemId with
     | none => Response.score (-1)
     | some s => Response.score s, q)
  | Command.info =>
    (Response.stats uptimeSecs version q.stats.updates q.stats.items q.stats.pools, q)
  | Command.error msg => (Response.error msg, q)
  | Command.help => (Response.help, q)

/-- Split a character stream into its CRLF-terminated lines; `none` when a
trailing fragment is not CRLF-terminated. -/
def crlfSplit : List Char → Option (List (List Char))
  | [] => some []
  | [_] => none
  | c1 :: c2 :: rest =>
    if c1 = '\r' ∧ c2 = '\n' then (crlfSplit rest).map (fun ls => [] :: ls)
    else
      match crlfSplit (c2 :: rest) with
      | some (l :: ls) => some ((c1 :: l) :: ls)
      | _ => none

/-- Does a line carry the protocol's status prefix? -/
def linePrefixOk (l : List Char) : Bool :=
  match l with
  | '+' :: _ => true
  | '-' :: _ => true
  | _ => false

/-- The whole wire string is made of CRLF-terminated lines, each carrying a
`+` or `-` status prefix. -/
def prefixedOk (s : String) : Bool :=
  match crlfSplit s.toList with
  | some ls => !ls.isEmpty && ls.all linePrefixOk
  | none => false

/-- A payload string that cannot disturb the line structure. -/
def lineSafe (s : String) : Prop := '\r' ∉ s.toList ∧ '\n' ∉ s.toList

/-- All embedded payload strings of a response are line-safe.  The strings
the server actually embeds (identifiers, the fixed error messages, the
version constant) satisfy this. -/
def payloadSafe : Response → Prop
  | Response.item s => lineSafe s
  | Response.error msg => lineSafe msg
  | Response.stats _ version _ _ _ => lineSafe version
  | _ => True

/-- Every running sum `acc + d1 + ... + dk` stays inside the i64 range. -/
def runningSumsOk : Int → List Int → Bool
  | _, [] => true
  | acc, d :: ds => decide (i64InRange (acc + d)) && runningSumsOk (acc + d) ds

/-- Apply a sequence of updates to the same item. -/
def updateSeq (q : PriorityQueue) (item : ItemId) : List Int → PriorityQueue
  | [] => q
  | d :: ds => updateSeq (q.update item d).2 item ds

/-- Queue states reachable from the fresh queue through the public
operations.  `peek` and `score` take `&self` and cannot change the state,
so only `update` and `next` appear. -/
inductive Reachable : PriorityQueue → Prop where
  | init : Reachable PriorityQueue.empty
  | update (item : ItemId) (v : Score) {q : PriorityQueue} :
      Reachable q → Reachable (q.update item v).2
  | next {q : PriorityQueue} : Reachable q → Reachable (q.next).2

/-- The representation invariant of the dual-index structure. -/
structure QInv (q : PriorityQueue) : Prop where
  sorted : (q.scores.map Prod.fst).Pairwise (fun a b => b < a)
  poolsNonempty : ∀ p ∈ q.scores, p.2 ≠ []
  keysNodup : (q.items.map Prod.fst).Nodup
  perm : (flatPairs q.scores).Perm q.items
  statItems : q.stats.items = q.items.length
  statPools : q.stats.pools = q.scores.length

/-! ### Association-list lemmas for the by-id map -/

theorem lookupId_insertId_self (m : List (ItemId × Score)) (i : ItemId) (s : Score) :
    lookupId (insertId i s m) i = some s := by
  induction m with
  | nil => simp [insertId, lookupId]
  | cons kv rest ih =>
    obtain ⟨k, v⟩ := kv
    by_cases h : k = i
    · simp [insertId, h, lookupId]
    · simp [insertId, h, lookupId, ih]

theorem lookupId_eq_none (m : List (ItemId × Score)) (i : ItemId) :
    lookupId m i = none ↔ i ∉ m.map Prod.fst := by
  induction m with
  | nil => simp [lookupId]
  | cons kv rest ih =>
    obtain ⟨k, v⟩ := kv
    by_cases h : k = i
    · simp [lookupId, h]
    · simp only [lookupId, h, if_false, List.map_cons, List.mem_cons, ih]
      constructor
      · rintro hni (hik | hmem)
        · exact h hik.symm
        · exact hni hmem
      · intro hni hmem
        exact hni (Or.inr hmem)

theorem lookupId_mem {m : List (ItemId × Score)} {i : ItemId} {v : Score}
    (h : lookupId m i = some v) : (i, v) ∈ m := by
  induction m with
  | nil => simp [lookupId] at h
  | cons kv rest ih =>
    obtain ⟨k, w⟩ := kv
    by_cases hk : k = i
    · subst hk
      simp [lookupId] at h
      subst h
      exact List.mem_cons_self _ _
    · simp [lookupId, hk] at h
      exact List.mem_cons_of_mem _ (ih h)

theorem mem_lookupId {m : List (ItemId × Score)} (hn : (m.map Prod.fst).Nodup)
    {i : ItemId} {v : Score} (h : (i, v) ∈ m) : lookupId m i = some v := by
  induction m with
  | nil => simp at h
  | cons kv rest ih =>
    obtain ⟨k, w⟩ := kv
    simp only [List.map_cons, List.nodup_cons] at hn
    rcases List.mem_cons.mp h with heq | hmem
    · cases heq
      simp [lookupId]
    · by_cases hk : k = i
      · subst hk
        exact absurd (List.mem_map.mpr ⟨(k, v), hmem, rfl⟩) hn.1
      · simp only [lookupId, hk, if_false]
        exact ih hn.2 hmem

theorem insertId_eq_append {m : List (ItemId × Score)} {i : ItemId}
    (h : lookupId m i = none) (s : Score) : insertId i s m = m ++ [(i, s)] := by
  induction m with
  | nil => simp [insertId]
  | cons kv rest ih =>
    obtain ⟨k, v⟩ := kv
    by_cases hk : k = i
    · simp [lookupId, hk] at h
    · simp only [lookupId, hk, if_false] at h
      simp [insertId, hk, ih h]

theorem perm_cons_removeId {m : List (ItemId × Score)} {i : ItemId} {v : Score}
    (h : lookupId m i = some v) : List.Perm m ((i, v) :: removeId i m) := by
  induction m with
  | nil => simp [lookupId] at h
  | cons kv rest ih =>
    obtain ⟨k, w⟩ := kv
    by_cases hk : k = i
    · subst hk
      simp [lookupId] at h
      subst h
      simp [removeId]
    · simp only [lookupId, hk, if_false] at h
      simp only [removeId, hk, if_false]
      exact ((ih h).cons (k, w)).trans (List.Perm.swap (i, v) (k, w) _)

theorem insertId_perm_present {m : List (ItemId × Score)} {i : ItemId} {cur : Score}
    (h : lookupId m i = some cur) (s : Score) :
    List.Perm (insertId i s m) ((i, s) :: removeId i m) := by
  induction m with
  | nil => simp [lookupId] at h
  | cons kv rest ih =>
    obtain ⟨k, w⟩ := kv
    by_cases hk : k = i
    · subst hk
      simp [insertId, removeId]
    · simp only [lookupId, hk, if_false] at h
      simp only [insertId, removeId, hk, if_false]
      exact ((ih h).cons (k, w)).trans (List.Perm.swap (i, s) (k, w) _)

theorem length_insertId_present {m : List (ItemId × Score)} {i : ItemId} {v : Score}
    (h : lookupId m i = some v) (s : Score) : (insertId i s m).length = m.length := by
  induction m with
  | nil => simp [lookupId] at h
  | cons kv rest ih =>
    obtain ⟨k, w⟩ := kv
    by_cases hk : k = i
    · simp [insertId, hk]
    · simp only [lookupId, hk, if_false] at h
      simp [insertId, hk, ih h]

theorem mem_keys_insertId {m : List (ItemId × Score)} {i j : ItemId} {s : Score}
    (h : j ∈ (insertId i s m).map Prod.fst) : j ∈ m.map Prod.fst ∨ j = i := by
  induction m with
  | nil => simp [insertId] at h; simp [h]
  | cons kv rest ih =>
    obtain ⟨k, v⟩ := kv
    by_cases hk : k = i
    · simp only [insertId, hk, if_true] at h
      subst hk
      rcases List.mem_cons.mp h with heq | hmem
      · exact Or.inr heq
      · exact Or.inl (List.mem_cons_of_mem _ hmem)
    · simp only [insertId, hk, if_false, List.map_cons, List.mem_cons] at h
      rcases h with heq | hmem
      · exact Or.inl (by simp [heq])
      · rcases ih hmem with hm | he
        · exact Or.inl (List.mem_cons_of_mem _ hm)
        · exact Or.inr he

theorem keysNodup_insertId {m : List (ItemId × Score)}
    (hn : (m.map Prod.fst).Nodup) (i : ItemId) (s : Score) :
    ((insertId i s m).map Prod.fst).Nodup := by
  induction m with
  | nil => simp [insertId]
  | cons kv rest ih =>
    obtain ⟨k, v⟩ := kv
    simp only [List.map_cons, List.nodup_cons] at hn
    by_cases hk : k = i
    · subst hk
      simp only [insertId, if_true, List.map_cons, List.nodup_cons]
      exact ⟨hn.1, hn.2⟩
    · simp only [insertId, hk, if_false, List.map_cons, List.nodup_cons]
      refine ⟨fun hmem => ?_, ih hn.2⟩
      rcases mem_keys_insertId hmem with hm | he
      · exact hn.1 hm
      · exact hk he

theorem removeId_sublist (i : ItemId) (m : List (ItemId × Score)) :
    List.Sublist (removeId i m) m := by
  induction m with
  | nil => simp [removeId]
  | cons kv rest ih =>
    obtain ⟨k, v⟩ := kv
    by_cases hk : k = i
    · simp only [removeId, hk, if_true]
      exact List.sublist_cons_self _ _
    · simp only [removeId, hk, if_false]
      exact ih.cons₂ _

theorem length_removeId {m : List (ItemId × Score)} {i : ItemId} {v : Score}
    (h : lookupId m i = some v) : (removeId i m).length + 1 = m.length := by
  induction m with
  | nil => simp [lookupId] at h
  | cons kv rest ih =>
    obtain ⟨k, w⟩ := kv
    by_cases hk : k = i
    · simp [removeId, hk]
    · simp only [lookupId, hk, if_false] at h
      simp [removeId, hk, ih h]

theorem perm_cons_filter_of_nodup {l : List ItemId} (hn : l.Nodup) {a : ItemId}
    (h : a ∈ l) : List.Perm l (a :: l.filter (fun x => x != a)) := by
  have hp := List.perm_cons_erase h
  rwa [hn.erase_eq_filter] at hp

/-! ### Lemmas for the by-score map -/

theorem lookupScore_mem {ks : List (Score × List ItemId)} {s : Score} {p : List ItemId}
    (h : lookupScore ks s = some p) : (s, p) ∈ ks := by
  induction ks with
  | nil => simp [lookupScore] at h
  | cons kp rest ih =>
    obtain ⟨k, q⟩ := kp
    by_cases hk : k = s
    · subst hk
      simp [lookupScore] at h
      subst h
      exact List.mem_cons_self _ _
    · simp only [lookupScore, hk, if_false] at h
      exact List.mem_cons_of_mem _ (ih h)

theorem mem_lookupScore {ks : List (Score × List ItemId)}
    (hn : (ks.map Prod.fst).Nodup) {s : Score} {p : List ItemId}
    (h : (s, p) ∈ ks) : lookupScore ks s = some p := by
  induction ks with
  | nil => simp at h
  | cons kp rest ih =>
    obtain ⟨k, q⟩ := kp
    simp only [List.map_cons, List.nodup_cons] at hn
    rcases List.mem_cons.mp h with heq | hmem
    · cases heq
      simp [lookupScore]
    · by_cases hk : k = s
      · subst hk
        exact absurd (List.mem_map.mpr ⟨(k, p), hmem, rfl⟩) hn.1
      · simp only [lookupScore, hk, if_false]
        exact ih hn.2 hmem

theorem lookupScore_eq_none_of_forall_ne {ks : List (Score × List ItemId)} {s : Score}
    (h : ∀ k ∈ ks.map Prod.fst, ¬(k = s)) : lookupScore ks s = none := by
  induction ks with
  | nil => simp [lookupScore]
  | cons kp rest ih =>
    obtain ⟨k, q⟩ := kp
    have hk : ¬(k = s) := h k (by simp)
    simp only [lookupScore, hk, if_false]
    exact ih fun k' hk' => h k' (List.mem_cons_of_mem _ hk')

theorem removeScore_sublist (s : Score) (ks : List (Score × List ItemId)) :
    List.Sublist (removeScore s ks) ks := by
  induction ks with
  | nil => simp [removeScore]
  | cons kp rest ih =>
    obtain ⟨k, q⟩ := kp
    by_cases hk : k = s
    · simp only [removeScore, hk, if_true]
      exact List.sublist_cons_self _ _
    · simp only [removeScore, hk, if_false]
      exact ih.cons₂ _

theorem length_removeScore {ks : List (Score × List ItemId)} {s : Score} {p : List ItemId}
    (h : lookupScore ks s = some p) : (removeScore s ks).length + 1 = ks.length := by
  induction ks with
  | nil => simp [lookupScore] at h
  | cons kp rest ih =>
    obtain ⟨k, q⟩ := kp
    by_cases hk : k = s
    · simp [removeScore, hk]
    · simp only [lookupScore, hk, if_false] at h
      simp [removeScore, hk, ih h]

theorem flatPairs_removeScore {ks : List (Score × List ItemId)} {s : Score} {p : List ItemId}
    (h : lookupScore ks s = some p) :
    List.Perm (flatPairs ks) (p.map (fun i => (i, s)) ++ flatPairs (removeScore s ks)) := by
  induction ks with
  | nil => simp [lookupScore] at h
  | cons kp rest ih =>
    obtain ⟨k, q⟩ := kp
    by_cases hk : k = s
    · subst hk
      simp only [lookupScore, if_true, Option.some.injEq] at h
      subst h
      simp only [removeScore, if_true, flatPairs]
      exact List.Perm.refl _
    · simp only [lookupScore, hk, if_false] at h
      simp only [removeScore, hk, if_false, flatPairs]
      refine ((ih h).append_left _).trans ?_
      rw [← List.append_assoc, ← List.append_assoc]
      exact List.Perm.append_right _ List.perm_append_comm

theorem setScore_map_fst (s : Score) (p' : List ItemId) (ks : List (Score × List ItemId)) :
    (setScore s p' ks).map Prod.fst = ks.map Prod.fst := by
  induction ks with
  | nil => simp [setScore]
  | cons kp rest ih =>
    obtain ⟨k, q⟩ := kp
    by_cases hk : k = s
    · simp [setScore, hk]
    · simp [setScore, hk, ih]

theorem length_setScore (s : Score) (p' : List ItemId) (ks : List (Score × List ItemId)) :
    (setScore s p' ks).length = ks.length := by
  have h := congrArg List.length (setScore_map_fst s p' ks)
  simpa using h

theorem flatPairs_setScore {ks : List (Score × List ItemId)} {s : Score} {p : List ItemId}
    (h : lookupScore ks s = some p) (p' : List ItemId) :
    List.Perm (flatPairs (setScore s p' ks))
      (p'.map (fun i => (i, s)) ++ flatPairs (removeScore s ks)) := by
  induction ks with
  | nil => simp [lookupScore] at h
  | cons kp rest ih =>
    obtain ⟨k, q⟩ := kp
    by_cases hk : k = s
    · subst hk
      simp only [setScore, removeScore, if_true, flatPairs]
      exact List.Perm.refl _
    · simp only [lookupScore, hk, if_false] at h
      simp only [setScore, removeScore, hk, if_false, flatPairs]
      refine ((ih h).append_left _).trans ?_
      rw [← List.append_assoc, ← List.append_assoc]
      exact List.Perm.append_right _ List.perm_append_comm

theorem setScore_pools_nonempty {ks : List (Score × List ItemId)}
    (hne : ∀ x ∈ ks, x.2 ≠ []) {p' : List ItemId} (hp : p' ≠ []) (s : Score) :
    ∀ x ∈ setScore s p' ks, x.2 ≠ [] := by
  induction ks with
  | nil => simp [setScore]
  | cons kp rest ih =>
    obtain ⟨k, q⟩ := kp
    intro x hx
    by_cases hk : k = s
    · simp only [setScore, hk, if_true] at hx
      rcases List.mem_cons.mp hx with heq | hmem
      · subst heq; exact hp
      · exact hne x (List.mem_cons_of_mem _ hmem)
    · simp only [setScore, hk, if_false] at hx
      rcases List.mem_cons.mp hx with heq | hmem
      · subst heq; exact hne (k, q) (List.mem_cons_self _ _)
      · exact ih (fun y hy => hne y (List.mem_cons_of_mem _ hy)) x hmem

theorem mem_keys_insertScorePush {ks : List (Score × List ItemId)} {s j : Score} {i : ItemId}
    (h : j ∈ (insertScorePush s i ks).map Prod.fst) : j ∈ ks.map Prod.fst ∨ j = s := by
  induction ks with
  | nil => simp [insertScorePush] at h; simp [h]
  | cons kp rest ih =>
    obtain ⟨k, q⟩ := kp
    simp only [insertScorePush] at h
    by_cases h1 : s > k
    · rw [if_pos h1] at h
      rcases List.mem_cons.mp h with hs | hrest
      · exact Or.inr hs
      · exact Or.inl hrest
    · rw [if_neg h1] at h
      by_cases h2 : s = k
      · rw [if_pos h2] at h
        rcases List.mem_cons.mp h with hk | hrest
        · exact Or.inl (by simp [hk])
        · exact Or.inl (List.mem_cons_of_mem _ hrest)
      · rw [if_neg h2] at h
        rcases List.mem_cons.mp h with hk | hrest
        · exact Or.inl (by simp [hk])
        · rcases ih hrest with hm | he
          · exact Or.inl (List.mem_cons_of_mem _ hm)
          · exact Or.inr he

theorem insertScorePush_sorted {ks : List (Score × List ItemId)}
    (hs : (ks.map Prod.fst).Pairwise (fun a b => b < a)) (s : Score) (i : ItemId) :
    ((insertScorePush s i ks).map Prod.fst).Pairwise (fun a b => b < a) := by
  induction ks with
  | nil => simp [insertScorePush]
  | cons kp rest ih =>
    obtain ⟨k, q⟩ := kp
    simp only [List.map_cons, List.pairwise_cons] at hs
    simp only [insertScorePush]
    by_cases h1 : s > k
    · rw [if_pos h1]
      simp only [List.map_cons, List.pairwise_cons]
      refine ⟨fun b hb => ?_, fun b hb => ?_, hs.2⟩
      · rcases List.mem_cons.mp hb with heq | hmem
        · subst heq; exact h1
        · exact lt_trans (hs.1 b hmem) h1
      · exact hs.1 b hb
    · rw [if_neg h1]
      by_cases h2 : s = k
      · rw [if_pos h2]
        simp only [List.map_cons, List.pairwise_cons]
        exact hs
      · rw [if_neg h2]
        simp only [List.map_cons, List.pairwise_cons]
        refine ⟨fun b hb => ?_, ih hs.2⟩
        rcases mem_keys_insertScorePush hb with hm | he
        · exact hs.1 b hm
        · subst he
          exact lt_of_le_of_ne (not_lt.mp h1) h2

theorem flatPairs_insertScorePush (s : Score) (i : ItemId) (ks : List (Score × List ItemId)) :
    List.Perm (flatPairs (insertScorePush s i ks)) ((i, s) :: flatPairs ks) := by
  induction ks with
  | nil =>
    simp only [insertScorePush, flatPairs, List.map_cons, List.map_nil]
    exact List.Perm.refl _
  | cons kp rest ih =>
    obtain ⟨k, q⟩ := kp
    simp only [insertScorePush]
    by_cases h1 : s > k
    · rw [if_pos h1]
      simp only [flatPairs, List.map_cons, List.map_nil, List.nil_append,
        List.singleton_append]
      exact List.Perm.refl _
    · rw [if_neg h1]
      by_cases h2 : s = k
      · subst h2
        rw [if_pos rfl]
        simp only [flatPairs, List.map_append, List.map_cons, List.map_nil,
          List.append_assoc, List.singleton_append]
        exact List.perm_middle
      · rw [if_neg h2]
        simp only [flatPairs]
        exact ((ih).append_left _).trans List.perm_middle

theorem length_insertScorePush {ks : List (Score × List ItemId)}
    (hs : (ks.map Prod.fst).Pairwise (fun a b => b < a)) (s : Score) (i : ItemId) :
    (insertScorePush s i ks).length =
      if (lookupScore ks s).isSome then ks.length else ks.length + 1 := by
  induction ks with
  | nil => simp [insertScorePush, lookupScore]
  | cons kp rest ih =>
    obtain ⟨k, q⟩ := kp
    simp only [List.map_cons, List.pairwise_cons] at hs
    by_cases h1 : s > k
    · have hnone : lookupScore ((k, q) :: rest) s = none := by
        refine lookupScore_eq_none_of_forall_ne fun k' hk' he => ?_
        simp only [List.map_cons] at hk'
        rcases List.mem_cons.mp hk' with heq | hmem
        · rw [heq] at he
          rw [he] at h1
          exact lt_irrefl s h1
        · have hlt := hs.1 k' hmem
          rw [he] at hlt
          exact lt_irrefl s (lt_trans hlt h1)
      simp only [insertScorePush]
      rw [if_pos h1, hnone]
      simp
    · simp only [insertScorePush]
      rw [if_neg h1]
      by_cases h2 : s = k
      · subst h2
        rw [if_pos rfl]
        simp [lookupScore]
      · rw [if_neg h2]
        have hk2 : ¬(k = s) := fun he => h2 he.symm
        simp only [lookupScore, hk2, if_false, List.length_cons, ih hs.2]
        by_cases hls : (lookupScore rest s).isSome
        · simp [hls]
        · simp [hls]

theorem insertScorePush_pools_nonempty {ks : List (Score × List ItemId)}
    (hne : ∀ x ∈ ks, x.2 ≠ []) (s : Score) (i : ItemId) :
    ∀ x ∈ insertScorePush s i ks, x.2 ≠ [] := by
  induction ks with
  | nil =>
    intro x hx
    simp only [insertScorePush, List.mem_singleton] at hx
    subst hx
    simp
  | cons kp rest ih =>
    obtain ⟨k, q⟩ := kp
    intro x hx
    simp only [insertScorePush] at hx
    by_cases h1 : s > k
    · rw [if_pos h1] at hx
      rcases List.mem_cons.mp hx with heq | hx
      · subst heq; simp
      · exact hne x hx
    · rw [if_neg h1] at hx
      by_cases h2 : s = k
      · rw [if_pos h2] at hx
        rcases List.mem_cons.mp hx with heq | hx
        · subst heq; simp
        · exact hne x (List.mem_cons_of_mem _ hx)
      · rw [if_neg h2] at hx
        rcases List.mem_cons.mp hx with heq | hx
        · subst heq; exact hne (k, q) (List.mem_cons_self _ _)
        · exact ih (fun y hy => hne y (List.mem_cons_of_mem _ hy)) x hx

theorem flatPairs_mem {ks : List (Score × List ItemId)} {i : ItemId} {s : Score} :
    (i, s) ∈ flatPairs ks ↔ ∃ p, (s, p) ∈ ks ∧ i ∈ p := by
  induction ks with
  | nil => simp [flatPairs]
  | cons kp rest ih =>
    obtain ⟨k, q⟩ := kp
    simp only [flatPairs, List.mem_append, List.mem_map, ih, List.mem_cons]
    constructor
    · rintro (⟨x, hx, hxe⟩ | ⟨p, hp, hip⟩)
      · have hxi : x = i := congrArg Prod.fst hxe
        have hks : k = s := congrArg Prod.snd hxe
        subst hxi; subst hks
        exact ⟨q, Or.inl rfl, hx⟩
      · exact ⟨p, Or.inr hp, hip⟩
    · rintro ⟨p, hp | hp, hip⟩
      · have hsk : s = k := congrArg Prod.fst hp
        have hpq : p = q := congrArg Prod.snd hp
        subst hsk; subst hpq
        exact Or.inl ⟨i, hip, rfl⟩
      · exact Or.inr ⟨p, hp, hip⟩

theorem length_flatPairs (ks : List (Score × List ItemId)) :
    (flatPairs ks).length = (ks.map (fun x => x.2.length)).sum := by
  induction ks with
  | nil => simp [flatPairs]
  | cons kp rest ih =>
    obtain ⟨k, q⟩ := kp
    simp [flatPairs, ih]

/-! ### Invariant preservation -/

theorem qinv_empty : QInv PriorityQueue.empty := by
  constructor <;> simp [PriorityQueue.empty, flatPairs]

theorem qinv_updates_bump {q : PriorityQueue} (hI : QInv q) (u : Int) :
    QInv { q with stats := { q.stats with updates := u } } :=
  ⟨hI.sorted, hI.poolsNonempty, hI.keysNodup, hI.perm, hI.statItems, hI.statPools⟩

theorem removeItem_surgery {q : PriorityQueue} {item : ItemId} {cur : Score}
    (hI : QInv q) (h : lookupId q.items item = some cur) :
    List.Perm ((item, cur) :: flatPairs (q.removeItem item cur).scores) (flatPairs q.scores)
    ∧ ((q.removeItem item cur).scores.map Prod.fst).Pairwise (fun a b => b < a)
    ∧ (∀ p ∈ (q.removeItem item cur).scores, p.2 ≠ [])
    ∧ (q.removeItem item cur).stats.pools = ((q.removeItem item cur).scores.length : Int)
    ∧ (q.removeItem item cur).items = q.items
    ∧ (q.removeItem item cur).stats.updates = q.stats.updates
    ∧ (q.removeItem item cur).stats.items = q.stats.items := by
  have hmemItems : (item, cur) ∈ q.items := lookupId_mem h
  have hmemFlat : (item, cur) ∈ flatPairs q.scores := hI.perm.mem_iff.mpr hmemItems
  obtain ⟨p, hpMem, hip⟩ := flatPairs_mem.mp hmemFlat
  have hkeysNodup : (q.scores.map Prod.fst).Nodup := hI.sorted.imp fun hab => ne_of_gt hab
  have hlook : lookupScore q.scores cur = some p := mem_lookupScore hkeysNodup hpMem
  have hflatNodup : ((flatPairs q.scores).map Prod.fst).Nodup :=
    ((hI.perm.map Prod.fst).symm).nodup hI.keysNodup
  have hremPerm := flatPairs_removeScore hlook
  have hpNodup : p.Nodup := by
    have h1 : ((p.map (fun i => (i, cur)) ++
        flatPairs (removeScore cur q.scores)).map Prod.fst).Nodup :=
      (hremPerm.map Prod.fst).nodup hflatNodup
    rw [List.map_append] at h1
    have h2 := h1.of_append_left
    have h3 : List.map Prod.fst (p.map (fun i => (i, cur))) = p := by
      rw [List.map_map]
      exact List.map_id _
    rwa [h3] at h2
  have hpp : List.Perm p (item :: p.filter (fun x => x != item)) :=
    perm_cons_filter_of_nodup hpNodup hip
  by_cases hfe : p.filter (fun x => x != item) = []
  · have hresult : q.removeItem item cur =
        { q with scores := removeScore cur q.scores,
                 stats := { q.stats with pools := q.stats.pools - 1 } } := by
      simp only [PriorityQueue.removeItem, hlook, hfe, if_true]
    rw [hresult]
    have hpSingle : List.Perm p [item] := by
      have hpp2 := hpp
      rw [hfe] at hpp2
      exact hpp2
    refine ⟨?_, ?_, ?_, ?_, rfl, rfl, rfl⟩
    · refine List.Perm.symm (hremPerm.trans ?_)
      have hmap : List.Perm (p.map (fun i => (i, cur))) [(item, cur)] :=
        hpSingle.map (fun i => (i, cur))
      exact (hmap.append_right _).trans (List.Perm.refl _)
    · exact hI.sorted.sublist ((removeScore_sublist cur q.scores).map Prod.fst)
    · exact fun x hx => hI.poolsNonempty x ((removeScore_sublist cur q.scores).subset hx)
    · have hlen := length_removeScore hlook
      have hp := hI.statPools
      simp only
      omega
  · have hresult : q.removeItem item cur =
        { q with scores := setScore cur (p.filter (fun x => x != item)) q.scores } := by
      simp only [PriorityQueue.removeItem, hlook, hfe, if_false]
    rw [hresult]
    refine ⟨?_, ?_, ?_, ?_, rfl, rfl, rfl⟩
    · have hset := flatPairs_setScore hlook (p.filter (fun x => x != item))
      refine List.Perm.symm (hremPerm.trans ?_)
      refine ((hpp.map (fun i => (i, cur))).append_right _).trans ?_
      simp only [List.map_cons, List.cons_append]
      exact (hset.symm).cons _
    · rw [setScore_map_fst]
      exact hI.sorted
    · exact setScore_pools_nonempty hI.poolsNonempty hfe cur
    · simp only [length_setScore]
      exact hI.statPools

theorem qinv_update {q : PriorityQueue} (hI : QInv q) (item : ItemId) (v : Score) :
    QInv (q.update item v).2 := by
  rcases hq : lookupId q.items item with _ | cur
  · have hup : (q.update item v).2 =
        { scores := insertScorePush v item q.scores,
          items := insertId item v q.items,
          stats := { updates := q.stats.updates + 1,
                     items := q.stats.items + 1,
                     pools := if (lookupScore q.scores v).isSome then q.stats.pools
                              else q.stats.pools + 1 } } := by
      by_cases hc : (lookupScore q.scores v).isSome
      · simp [PriorityQueue.update, hq, hc]
      · simp [PriorityQueue.update, hq, hc]
    rw [hup]
    constructor
    · exact insertScorePush_sorted hI.sorted v item
    · exact insertScorePush_pools_nonempty hI.poolsNonempty v item
    · exact keysNodup_insertId hI.keysNodup item v
    · refine (flatPairs_insertScorePush v item q.scores).trans ?_
      refine (hI.perm.cons (item, v)).trans ?_
      rw [insertId_eq_append hq v]
      exact (List.perm_append_singleton _ _).symm
    · show q.stats.items + 1 = ((insertId item v q.items).length : Int)
      rw [insertId_eq_append hq v, List.length_append, List.length_singleton]
      have := hI.statItems
      push_cast
      omega
    · show (if (lookupScore q.scores v).isSome then q.stats.pools else q.stats.pools + 1) =
        ((insertScorePush v item q.scores).length : Int)
      rw [length_insertScorePush hI.sorted v item]
      have := hI.statPools
      by_cases hc : (lookupScore q.scores v).isSome
      · simp only [hc, if_true]
        exact this
      · simp only [hc, if_false]
        push_cast
        omega
  · have hI0 : QInv { q with stats := { q.stats with updates := q.stats.updates + 1 } } :=
      qinv_updates_bump hI _
    obtain ⟨hPerm1, hSorted1, hNe1, hPools1, hItems1, hUpd1, hStatItems1⟩ :=
      removeItem_surgery hI0 (show lookupId q.items item = some cur from hq)
    set q1 : PriorityQueue := PriorityQueue.removeItem
      { q with stats := { q.stats with updates := q.stats.updates + 1 } } item cur with hq1def
    have hup : (q.update item v).2 =
        { scores := insertScorePush (wrapI64 (v + cur)) item q1.scores,
          items := insertId item (wrapI64 (v + cur)) q1.items,
          stats := { updates := q1.stats.updates,
                     items := q1.stats.items,
                     pools := if (lookupScore q1.scores (wrapI64 (v + cur))).isSome
                              then q1.stats.pools else q1.stats.pools + 1 } } := by
      by_cases hc : (lookupScore q1.scores (wrapI64 (v + cur))).isSome
      · rw [hq1def] at hc ⊢
        simp [PriorityQueue.update, hq, hc]
      · rw [hq1def] at hc ⊢
        simp [PriorityQueue.update, hq, hc]
    have hitems : q1.items = q.items := hItems1
    have hlook1 : lookupId q1.items item = some cur := by rw [hitems]; exact hq
    rw [hup]
    constructor
    · exact insertScorePush_sorted hSorted1 _ item
    · exact insertScorePush_pools_nonempty hNe1 _ item
    · dsimp only
      rw [hitems]
      exact keysNodup_insertId hI.keysNodup item _
    · dsimp only
      refine (flatPairs_insertScorePush _ item _).trans ?_
      have hflat1 : List.Perm (flatPairs q1.scores) (removeId item q.items) := by
        have hchain := hPerm1.trans (hI.perm.trans (perm_cons_removeId hq))
        exact hchain.cons_inv
      refine (hflat1.cons (item, wrapI64 (v + cur))).trans ?_
      rw [← hitems]
      exact (insertId_perm_present hlook1 (wrapI64 (v + cur))).symm
    · dsimp only
      rw [length_insertId_present hlook1, hitems, hStatItems1]
      exact hI.statItems
    · dsimp only
      rw [length_insertScorePush hSorted1 _ item]
      by_cases hc : (lookupScore q1.scores (wrapI64 (v + cur))).isSome
      · simp only [hc, if_true]
        exact hPools1
      · simp only [hc, if_false]
        rw [hPools1]
        push_cast
        omega

theorem qinv_next {q : PriorityQueue} (hI : QInv q) : QInv (q.next).2 := by
  rcases hsc : q.scores with _ | ⟨⟨s, pool⟩, rest⟩
  · have hup : (q.next).2 = q := by simp [PriorityQueue.next, hsc]
    rw [hup]
    exact hI
  · rcases hpool : pool with _ | ⟨it, tail⟩
    · exact absurd rfl (hI.poolsNonempty (s, []) (by
        rw [hsc, hpool] at *
        exact List.mem_cons_self _ _))
    · have hsorted := hI.sorted
      rw [hsc] at hsorted
      simp only [List.map_cons, List.pairwise_cons] at hsorted
      have hflat : flatPairs q.scores = (it, s) :: (tail.map (fun i => (i, s)) ++ flatPairs rest) := by
        rw [hsc, hpool]
        simp [flatPairs]
      have hmemFlat : (it, s) ∈ flatPairs q.scores := by
        rw [hflat]
        exact List.mem_cons_self _ _
      have hlookup : lookupId q.items it = some s :=
        mem_lookupId hI.keysNodup (hI.perm.mem_iff.mp hmemFlat)
      have hflatTail : List.Perm (tail.map (fun i => (i, s)) ++ flatPairs rest)
          (removeId it q.items) := by
        have hchain : List.Perm ((it, s) :: (tail.map (fun i => (i, s)) ++ flatPairs rest))
            ((it, s) :: removeId it q.items) := by
          rw [← hflat]
          exact hI.perm.trans (perm_cons_removeId hlookup)
        exact hchain.cons_inv
      have hlenItems := length_removeId hlookup
      have hsi := hI.statItems
      have hsp := hI.statPools
      rw [hsc] at hsp
      by_cases ht : tail = []
      · have hup : (q.next).2 =
            { scores := rest,
              items := removeId it q.items,
              stats := { updates := q.stats.updates,
                         items := q.stats.items - 1,
                         pools := q.stats.pools - 1 } } := by
          simp [PriorityQueue.next, hsc, hpool, ht]
        rw [hup]
        constructor
        · exact hsorted.2
        · exact fun x hx => hI.poolsNonempty x (by rw [hsc]; exact List.mem_cons_of_mem _ hx)
        · exact hI.keysNodup.sublist ((removeId_sublist it q.items).map Prod.fst)
        · dsimp only
          subst ht
          simp only [List.map_nil, List.nil_append] at hflatTail
          exact hflatTail
        · dsimp only
          omega
        · dsimp only
          simp only [List.length_cons] at hsp
          omega
      · have hup : (q.next).2 =
            { scores := (s, tail) :: rest,
              items := removeId it q.items,
              stats := { updates := q.stats.updates,
                         items := q.stats.items - 1,
                         pools := q.stats.pools } } := by
          simp [PriorityQueue.next, hsc, hpool, ht]
        rw [hup]
        constructor
        · simp only [List.map_cons, List.pairwise_cons]
          exact hsorted
        · intro x hx
          rcases List.mem_cons.mp hx with heq | hmem
          · subst heq
            exact ht
          · exact hI.poolsNonempty x (by rw [hsc]; exact List.mem_cons_of_mem _ hmem)
        · exact hI.keysNodup.sublist ((removeId_sublist it q.items).map Prod.fst)
        · dsimp only
          simp only [flatPairs]
          exact hflatTail
        · dsimp only
          omega
        · dsimp only
          simp only [List.length_cons] at hsp ⊢
          exact hsp

theorem reachable_qinv {q : PriorityQueue} (h : Reachable q) : QInv q := by
  induction h with
  | init => exact qinv_empty
  | update item v _ ih => exact qinv_update ih item v
  | next _ ih => exact qinv_next ih

/-! ### Supporting lemmas for the claims -/

theorem wrapI64_eq_self {n : Int} (h : i64InRange n) : wrapI64 n = n := by
  rcases h with ⟨h1, h2⟩
  unfold i64Min at h1
  unfold i64Max at h2
  unfold wrapI64
  have hub : n + 2 ^ 63 < 2 ^ 64 := by omega
  have hlb : (0 : Int) ≤ n + 2 ^ 63 := by omega
  rw [Int.emod_eq_of_lt hlb hub]
  omega

theorem update_fst_none {q : PriorityQueue} {item : ItemId} {v : Score}
    (h : lookupId q.items item = none) : (q.update item v).1 = (none, v) := by
  simp [PriorityQueue.update, h]

theorem update_fst_some {q : PriorityQueue} {item : ItemId} {v cur : Score}
    (h : lookupId q.items item = some cur) :
    (q.update item v).1 = (some cur, wrapI64 (v + cur)) := by
  simp [PriorityQueue.update, h]

theorem update_score_self (q : PriorityQueue) (item : ItemId) (v : Score) :
    (q.update item v).2.score item = some ((q.update item v).1.2) := by
  rcases h : lookupId q.items item with _ | cur <;>
    · simp only [PriorityQueue.update, PriorityQueue.score, h]
      split <;> exact lookupId_insertId_self _ _ _

theorem removeItem_stats_updates (q : PriorityQueue) (item : ItemId) (sc : Score) :
    (q.removeItem item sc).stats.updates = q.stats.updates := by
  unfold PriorityQueue.removeItem
  rcases lookupScore q.scores sc with _ | pool
  · rfl
  · dsimp only
    by_cases hfe : pool.filter (fun i => i != item) = []
    · simp [hfe]
    · simp [hfe]

theorem update_stats_updates (q : PriorityQueue) (item : ItemId) (v : Score) :
    (q.update item v).2.stats.updates = q.stats.updates + 1 := by
  rcases h : lookupId q.items item with _ | cur
  · by_cases hc : (lookupScore q.scores v).isSome <;>
      simp [PriorityQueue.update, h, hc]
  · have hri := removeItem_stats_updates
      { q with stats := { q.stats with updates := q.stats.updates + 1 } } item cur
    by_cases hc : (lookupScore (PriorityQueue.removeItem
        { q with stats := { q.stats with updates := q.stats.updates + 1 } } item cur).scores
        (wrapI64 (v + cur))).isSome <;>
      simp [PriorityQueue.update, h, hc, hri]

theorem updateSeq_score {item : ItemId} {ds : List Int} :
    ∀ {q : PriorityQueue} {acc : Int}, runningSumsOk acc ds = true →
    q.score item = some acc →
    (updateSeq q item ds).score item = some (acc + ds.sum) := by
  induction ds with
  | nil =>
    intro q acc _ hsc
    simpa [updateSeq] using hsc
  | cons d ds ih =>
    intro q acc hds hsc
    simp only [runningSumsOk, Bool.and_eq_true, decide_eq_true_eq] at hds
    have hstep : (q.update item d).2.score item = some (acc + d) := by
      have h1 := update_score_self q item d
      have h2 := update_fst_some (v := d) (show lookupId q.items item = some acc from hsc)
      rw [h2] at h1
      simp only at h1
      rw [show d + acc = acc + d from Int.add_comm d acc] at h1
      rwa [wrapI64_eq_self hds.1] at h1
    have hrec := ih hds.2 hstep
    rw [show updateSeq q item (d :: ds) = updateSeq (q.update item d).2 item ds from rfl]
    rw [hrec, List.sum_cons]
    congr 1
    omega

theorem eqIgnoreAsciiCase_trans {v a : String} (h : eqIgnoreAsciiCase v a = true)
    (b : String) : eqIgnoreAsciiCase v b = eqIgnoreAsciiCase a b := by
  unfold eqIgnoreAsciiCase at *
  rw [beq_iff_eq] at h
  rw [h]

theorem commandFromTokens_eq_spec (ts : List String) :
    commandFromTokens ts = specCommandOfLine ts := by
  rcases ts with _ | ⟨verb, args⟩
  · rfl
  · cases hU : eqIgnoreAsciiCase verb "UPDATE" with
    | true =>
      have hN : eqIgnoreAsciiCase verb "NEXT" = false :=
        (eqIgnoreAsciiCase_trans hU "NEXT").trans (by decide)
      have hP : eqIgnoreAsciiCase verb "PEEK" = false :=
        (eqIgnoreAsciiCase_trans hU "PEEK").trans (by decide)
      have hS : eqIgnoreAsciiCase verb "SCORE" = false :=
        (eqIgnoreAsciiCase_trans hU "SCORE").trans (by decide)
      have hI2 : eqIgnoreAsciiCase verb "INFO" = false :=
        (eqIgnoreAsciiCase_trans hU "INFO").trans (by decide)
      have hH : eqIgnoreAsciiCase verb "HELP" = false :=
        (eqIgnoreAsciiCase_trans hU "HELP").trans (by decide)
      rcases args with _ | ⟨a1, args1⟩
      · simp [commandFromTokens, specCommandOfLine, specArity, List.find?, hU, hN, hP, hI2, hH]
      · rcases args1 with _ | ⟨a2, args2⟩
        · simp [commandFromTokens, specCommandOfLine, specArity, List.find?, hU, hS]
        · rcases args2 with _ | ⟨a3, args3⟩
          · simp only [commandFromTokens, specCommandOfLine, specArity, List.find?, hU,
              if_true, if_pos rfl]
            rcases hp : parseI64 a2 with _ | n <;> simp [hp]
          · simp [commandFromTokens, specCommandOfLine, specArity, List.find?, hU]
    | false =>
      cases hN : eqIgnoreAsciiCase verb "NEXT" with
      | true =>
        have hP : eqIgnoreAsciiCase verb "PEEK" = false :=
          (eqIgnoreAsciiCase_trans hN "PEEK").trans (by decide)
        have hS : eqIgnoreAsciiCase verb "SCORE" = false :=
          (eqIgnoreAsciiCase_trans hN "SCORE").trans (by decide)
        have hI2 : eqIgnoreAsciiCase verb "INFO" = false :=
          (eqIgnoreAsciiCase_trans hN "INFO").trans (by decide)
        have hH : eqIgnoreAsciiCase verb "HELP" = false :=
          (eqIgnoreAsciiCase_trans hN "HELP").trans (by decide)
        rcases args with _ | ⟨a1, args1⟩
        · simp [commandFromTokens, specCommandOfLine, specArity, List.find?, hU, hN]
        · rcases args1 with _ | ⟨a2, args2⟩
          · simp [commandFromTokens, specCommandOfLine, specArity, List.find?, hU, hN, hS]
          · rcases args2 with _ | ⟨a3, args3⟩
            · simp [commandFromTokens, specCommandOfLine, specArity, List.find?, hU, hN]
            · simp [commandFromTokens, specCommandOfLine, specArity, List.find?, hU, hN]
      | false =>
        cases hP : eqIgnoreAsciiCase verb "PEEK" with
        | true =>
          have hS : eqIgnoreAsciiCase verb "SCORE" = false :=
            (eqIgnoreAsciiCase_trans hP "SCORE").trans (by decide)
          have hI2 : eqIgnoreAsciiCase verb "INFO" = false :=
            (eqIgnoreAsciiCase_trans hP "INFO").trans (by decide)
          have hH : eqIgnoreAsciiCase verb "HELP" = false :=
            (eqIgnoreAsciiCase_trans hP "HELP").trans (by decide)
          rcases args with _ | ⟨a1, args1⟩
          · simp [commandFromTokens, specCommandOfLine, specArity, List.find?, hU, hN, hP]
          · rcases args1 with _ | ⟨a2, args2⟩
            · simp [commandFromTokens, specCommandOfLine, specArity, List.find?,
                hU, hN, hP, hS]
            · rcases args2 with _ | ⟨a3, args3⟩
              · simp [commandFromTokens, specCommandOfLine, specArity, List.find?, hU, hN, hP]
              · simp [commandFromTokens, specCommandOfLine, specArity, List.find?, hU, hN, hP]
        | false =>
          cases hS : eqIgnoreAsciiCase verb "SCORE" with
          | true =>
            have hI2 : eqIgnoreAsciiCase verb "INFO" = false :=
              (eqIgnoreAsciiCase_trans hS "INFO").trans (by decide)
            have hH : eqIgnoreAsciiCase verb "HELP" = false :=
              (eqIgnoreAsciiCase_trans hS "HELP").trans (by decide)
            rcases args with _ | ⟨a1, args1⟩
            · simp [commandFromTokens, specCommandOfLine, specArity, List.find?,
                hU, hN, hP, hS, hI2, hH]
            · rcases args1 with _ | ⟨a2, args2⟩
              · simp [commandFromTokens, specCommandOfLine, specArity, List.find?,
                  hU, hN, hP, hS]
              · rcases args2 with _ | ⟨a3, args3⟩
                · simp [commandFromTokens, specCommandOfLine, specArity, List.find?,
                    hU, hN, hP, hS]
                · simp [commandFromTokens, specCommandOfLine, specArity, List.find?,
                    hU, hN, hP, hS]
          | false =>
            cases hI2 : eqIgnoreAsciiCase verb "INFO" with
            | true =>
              have hH : eqIgnoreAsciiCase verb "HELP" = false :=
                (eqIgnoreAsciiCase_trans hI2 "HELP").trans (by decide)
              rcases args with _ | ⟨a1, args1⟩
              · simp [commandFromTokens, specCommandOfLine, specArity, List.find?,
                  hU, hN, hP, hS, hI2]
              · rcases args1 with _ | ⟨a2, args2⟩
                · simp [commandFromTokens, specCommandOfLine, specArity, List.find?,
                    hU, hN, hP, hS, hI2]
                · rcases args2 with _ | ⟨a3, args3⟩
                  · simp [commandFromTokens, specCommandOfLine, specArity, List.find?,
                      hU, hN, hP, hS, hI2]
                  · simp [commandFromTokens, specCommandOfLine, specArity, List.find?,
                      hU, hN, hP, hS, hI2]
            | false =>
              cases hH : eqIgnoreAsciiCase verb "HELP" with
              | true =>
                rcases args with _ | ⟨a1, args1⟩
                · simp [commandFromTokens, specCommandOfLine, specArity, List.find?,
                    hU, hN, hP, hS, hI2, hH]
                · rcases args1 with _ | ⟨a2, args2⟩
                  · simp [commandFromTokens, specCommandOfLine, specArity, List.find?,
                      hU, hN, hP, hS, hI2, hH]
                  · rcases args2 with _ | ⟨a3, args3⟩
                    · simp [commandFromTokens, specCommandOfLine, specArity, List.find?,
                        hU, hN, hP, hS, hI2, hH]
                    · simp [commandFromTokens, specCommandOfLine, specArity, List.find?,
                        hU, hN, hP, hS, hI2, hH]
              | false =>
                rcases args with _ | ⟨a1, args1⟩
                · simp [commandFromTokens, specCommandOfLine, specArity, List.find?,
                    hU, hN, hP, hS, hI2, hH]
                · rcases args1 with _ | ⟨a2, args2⟩
                  · simp [commandFromTokens, specCommandOfLine, specArity, List.find?,
                      hU, hN, hP, hS, hI2, hH]
                  · rcases args2 with _ | ⟨a3, args3⟩
                    · simp [commandFromTokens, specCommandOfLine, specArity, List.find?,
                        hU, hN, hP, hS, hI2, hH]
                    · simp [commandFromTokens, specCommandOfLine, specArity, List.find?,
                        hU, hN, hP, hS, hI2, hH]

theorem toList_append (s t : String) : (s ++ t).toList = s.toList ++ t.toList := by
  simp [String.toList]

theorem crlfSplit_append {l : List Char} (hl : '\r' ∉ l) (rest : List Char) :
    crlfSplit (l ++ '\r' :: '\n' :: rest) = (crlfSplit rest).map (fun ls => l :: ls) := by
  induction l with
  | nil =>
    show crlfSplit ('\r' :: '\n' :: rest) = _
    rw [crlfSplit, if_pos ⟨rfl, rfl⟩]
  | cons c t ih =>
    have hc : ¬(c = '\r') := fun h => hl (h ▸ List.mem_cons_self c t)
    have ht : '\r' ∉ t := fun h => hl (List.mem_cons_of_mem c h)
    have ihs := ih ht
    rcases t with _ | ⟨c2, t2⟩
    · show crlfSplit (c :: '\r' :: '\n' :: rest) = _
      rw [crlfSplit, if_neg (fun hand => hc hand.1)]
      rw [show ('\r' :: '\n' :: rest) = ([] ++ '\r' :: '\n' :: rest) from rfl, ihs]
      rcases crlfSplit rest with _ | ls <;> simp
    · show crlfSplit (c :: (c2 :: t2) ++ '\r' :: '\n' :: rest) = _
      rw [List.cons_append]
      simp only [crlfSplit]
      rw [if_neg (fun hand => hc hand.1)]
      simp only [List.append_eq]
      rw [← List.cons_append, ihs]
      rcases crlfSplit rest with _ | ls <;> simp

theorem crlfSplit_line_cons {l rest : List Char} (hl : '\r' ∉ l)
    {ls : List (List Char)} (h : crlfSplit rest = some ls) :
    crlfSplit (l ++ '\r' :: '\n' :: rest) = some (l :: ls) := by
  rw [crlfSplit_append hl, h]
  rfl

theorem digitChar_mem (n : Nat) :
    digitChar n ∈ ['0', '1', '2', '3', '4', '5', '6', '7', '8', '9'] := by
  unfold digitChar
  split <;> decide

theorem natDigitsGo_mem {fuel : Nat} :
    ∀ {n : Nat} {acc : List Char} {c : Char}, c ∈ natDigitsGo fuel n acc →
    c ∈ acc ∨ c ∈ ['0', '1', '2', '3', '4', '5', '6', '7', '8', '9'] := by
  induction fuel with
  | zero =>
    intro n acc c h
    exact Or.inl h
  | succ fuel ih =>
    intro n acc c h
    simp only [natDigitsGo] at h
    by_cases hlt : n < 10
    · rw [if_pos hlt] at h
      rcases List.mem_cons.mp h with heq | hm
      · exact Or.inr (heq ▸ digitChar_mem _)
      · exact Or.inl hm
    · rw [if_neg hlt] at h
      rcases ih h with h1 | h2
      · rcases List.mem_cons.mp h1 with heq | hm
        · exact Or.inr (heq ▸ digitChar_mem _)
        · exact Or.inl hm
      · exact Or.inr h2

theorem intStrChars_no_cr_lf (n : Int) : '\r' ∉ intStrChars n ∧ '\n' ∉ intStrChars n := by
  have hnat : ∀ m : Nat, '\r' ∉ natStrChars m ∧ '\n' ∉ natStrChars m := by
    intro m
    constructor <;> intro hmem <;> rcases natDigitsGo_mem hmem with h1 | h2 <;> simp_all
  unfold intStrChars
  by_cases hneg : n < 0
  · rw [if_pos hneg]
    constructor <;> intro hmem <;> rcases List.mem_cons.mp hmem with heq | hm
    · exact absurd heq (by decide)
    · exact (hnat _).1 hm
    · exact absurd heq (by decide)
    · exact (hnat _).2 hm
  · rw [if_neg hneg]
    exact hnat _

theorem intStr_lineSafe (n : Int) : lineSafe (intStr n) := by
  have h := intStrChars_no_cr_lf n
  exact ⟨h.1, h.2⟩

/-! ### The claims -/

/-- Claim C1, counterexample: with "a" stored at `i64::MAX`, `UPDATE a 1`
is not rejected — the addition wraps to `i64::MIN`, both maps change, the
counters are incremented, and the wire response is `+OK`, not
`-Invalid value for UPDATE`. -/
theorem overflow_not_rejected_cex :
    ((PriorityQueue.empty.update "a" i64Max).2.update "a" 1).1 = (some i64Max, i64Min)
    ∧ ((PriorityQueue.empty.update "a" i64Max).2.update "a" 1).2.score "a" = some i64Min
    ∧ ((PriorityQueue.empty.update "a" i64Max).2.update "a" 1).2 ≠
        (PriorityQueue.empty.update "a" i64Max).2
    ∧ ((PriorityQueue.empty.update "a" i64Max).2.update "a" 1).2.stats.updates = 2
    ∧ processCommand 0 "" (Command.update "a" 1) (PriorityQueue.empty.update "a" i64Max).2 =
        (Response.ok, ((PriorityQueue.empty.update "a" i64Max).2.update "a" 1).2)
    ∧ renderResponse Response.ok = "+OK" ++ "\r\n"
    ∧ renderResponse Response.ok ≠ "-Invalid value for UPDATE" ++ "\r\n" :=
  ⟨by decide, by decide, by decide, by decide, by decide, by decide, by decide⟩

/-- Claim C1 (amended): an update whose addition `cur + delta` leaves the
i64 range is not rejected: the sum wraps (two's complement), both maps are
updated as in any other update, `stats.updates` is incremented, and the
command is answered with `+OK`. -/
theorem update_overflow_wraps {q : PriorityQueue} {item : ItemId} {cur : Score}
    (h : q.score item = some cur) (v : Score) :
    (q.update item v).1 = (some cur, wrapI64 (v + cur))
    ∧ (q.update item v).2.score item = some (wrapI64 (v + cur))
    ∧ (∀ u ver, processCommand u ver (Command.update item v) q =
        (Response.ok, (q.update item v).2))
    ∧ (q.update item v).2.stats.updates = q.stats.updates + 1 := by
  refine ⟨update_fst_some h, ?_, fun u ver => rfl, update_stats_updates q item v⟩
  have h1 := update_score_self q item v
  rw [update_fst_some h] at h1
  simpa using h1

/-- Witness for the amended C1 at the concrete overflowing input. -/
theorem update_overflow_wraps_witness :
    ((PriorityQueue.empty.update "a" i64Max).2.update "a" 1).1 =
      (some i64Max, wrapI64 (1 + i64Max))
    ∧ ((PriorityQueue.empty.update "a" i64Max).2.update "a" 1).2.score "a" =
      some (wrapI64 (1 + i64Max))
    ∧ processCommand 0 "" (Command.update "a" 1) (PriorityQueue.empty.update "a" i64Max).2 =
      (Response.ok, ((PriorityQueue.empty.update "a" i64Max).2.update "a" 1).2) := by
  have h := update_overflow_wraps
    (show ((PriorityQueue.empty.update "a" i64Max).2).score "a" = some i64Max by decide) 1
  exact ⟨h.1, h.2.1, h.2.2.1 0 ""⟩

/-- Claim C2, counterexample: with p, q, r inserted at score 5 in that
order, `update(p, 0)` does not keep p at its original FIFO position — the
following `next()` yields q, not p. -/
theorem update_zero_moves_cex :
    (((((PriorityQueue.empty.update "p" 5).2.update "q" 5).2.update "r" 5).2.update
        "p" 0).2.next).1 = some "q"
    ∧ (((((PriorityQueue.empty.update "p" 5).2.update "q" 5).2.update "r" 5).2.update
        "p" 0).2.next).1 ≠ some "p" :=
  ⟨by decide, by decide⟩

/-- Claim C2 (amended): every update of an existing id re-appends it at the
tail of the pool of its resulting score, even when the score is unchanged:
after p, q, r at score 5, `update(p, 0)` leaves the pool as q, r, p — the
same order that the re-bucketing round trip `update(p, 5); update(p, -5)`
produces — and `next()` then yields q, r, then p. -/
theorem update_requeues_at_tail :
    ((((PriorityQueue.empty.update "p" 5).2.update "q" 5).2.update "r" 5).2.update
        "p" 0).2.scores = [(5, ["q", "r", "p"])]
    ∧ (((((PriorityQueue.empty.update "p" 5).2.update "q" 5).2.update "r" 5).2.update
        "p" 5).2.update "p" (-5)).2.scores = [(5, ["q", "r", "p"])]
    ∧ (((((PriorityQueue.empty.update "p" 5).2.update "q" 5).2.update "r" 5).2.update
        "p" 0).2.next).1 = some "q"
    ∧ ((((((PriorityQueue.empty.update "p" 5).2.update "q" 5).2.update "r" 5).2.update
        "p" 0).2.next).2.next).1 = some "r"
    ∧ (((((((PriorityQueue.empty.update "p" 5).2.update "q" 5).2.update "r" 5).2.update
        "p" 0).2.next).2.next).2.next).1 = some "p" :=
  ⟨by decide, by decide, by decide, by decide, by decide⟩

/-- Claim C3: additive update semantics — an update on a fresh id stores
the delta itself, an update on an existing id (when `cur + delta` stays in
the i64 range) stores `cur + delta`, and a sequence of updates on the same
id starting from absence, with every running sum in range, leaves the score
equal to the sum of the deltas. -/
theorem update_additive (q : PriorityQueue) (item : ItemId) :
    (∀ v, q.score item = none →
      (q.update item v).1 = (none, v) ∧ (q.update item v).2.score item = some v)
    ∧ (∀ v cur, q.score item = some cur → i64InRange (cur + v) →
      (q.update item v).1 = (some cur, cur + v)
      ∧ (q.update item v).2.score item = some (cur + v))
    ∧ (∀ d ds, q.score item = none → runningSumsOk 0 (d :: ds) = true →
      (updateSeq q item (d :: ds)).score item = some ((d :: ds).sum)) := by
  have hwrap : ∀ v cur : Int, i64InRange (cur + v) → wrapI64 (v + cur) = cur + v := by
    intro v cur hr
    rw [Int.add_comm v cur]
    exact wrapI64_eq_self hr
  refine ⟨fun v hnone => ⟨update_fst_none hnone, ?_⟩,
          fun v cur hsome hrange => ⟨?_, ?_⟩,
          fun d ds hnone hok => ?_⟩
  · have h1 := update_score_self q item v
    rw [update_fst_none hnone] at h1
    simpa using h1
  · rw [update_fst_some hsome, hwrap v cur hrange]
  · have h1 := update_score_self q item v
    rw [update_fst_some hsome] at h1
    rw [hwrap v cur hrange] at h1
    simpa using h1
  · simp only [runningSumsOk, Bool.and_eq_true, decide_eq_true_eq] at hok
    have hfirst : (q.update item d).2.score item = some d := by
      have h1 := update_score_self q item d
      rw [update_fst_none hnone] at h1
      simpa using h1
    have hok2 : runningSumsOk d ds = true := by
      have h2 := hok.2
      rwa [Int.zero_add d] at h2
    have hrest := updateSeq_score hok2 hfirst
    rw [show updateSeq q item (d :: ds) = updateSeq (q.update item d).2 item ds from rfl]
    rw [hrest, List.sum_cons]

/-- Witness for C3 at concrete inputs. -/
theorem update_additive_witness :
    ((PriorityQueue.empty.update "a" 10).1 = (none, 10)
      ∧ (PriorityQueue.empty.update "a" 10).2.score "a" = some 10)
    ∧ (((PriorityQueue.empty.update "a" 10).2.update "a" 20).1 = (some 10, 30)
      ∧ ((PriorityQueue.empty.update "a" 10).2.update "a" 20).2.score "a" = some 30)
    ∧ (updateSeq PriorityQueue.empty "a" [10, 20, -5]).score "a" = some 25 := by
  have h1 := (update_additive PriorityQueue.empty "a").1 10 (by decide)
  have h2 := (update_additive (PriorityQueue.empty.update "a" 10).2 "a").2.1 20 10
    (by decide) (by decide)
  have h3 := (update_additive PriorityQueue.empty "a").2.2 10 [20, -5] (by decide) (by decide)
  exact ⟨h1, h2, h3⟩

/-- Claim C4: after any sequence of public operations from the fresh queue,
`stats.items` equals the size of the by-id map, which equals the total
number of entries over all pools, and `stats.pools` equals the number of
non-empty buckets in the by-score map. -/
theorem stats_accurate {q : PriorityQueue} (h : Reachable q) :
    q.stats.items = (q.items.length : Int)
    ∧ q.items.length = sumPoolSizes q
    ∧ q.stats.pools = ((q.scores.filter (fun p => p.2 ≠ [])).length : Int) := by
  have hI := reachable_qinv h
  refine ⟨hI.statItems, ?_, ?_⟩
  · unfold sumPoolSizes
    rw [← length_flatPairs]
    exact hI.perm.length_eq.symm
  · have hfil : q.scores.filter (fun p => p.2 ≠ []) = q.scores :=
      List.filter_eq_self.mpr fun x hx => by simpa using hI.poolsNonempty x hx
    rw [hfil]
    exact hI.statPools

/-- Witness for C4 at a concrete reachable state (two updates, one pop). -/
theorem stats_accurate_witness :
    ((((PriorityQueue.empty.update "a" 10).2.update "b" 20).2.next).2).stats.items =
      (((((PriorityQueue.empty.update "a" 10).2.update "b" 20).2.next).2).items.length : Int)
    ∧ ((((PriorityQueue.empty.update "a" 10).2.update "b" 20).2.next).2).items.length =
      sumPoolSizes ((((PriorityQueue.empty.update "a" 10).2.update "b" 20).2.next).2)
    ∧ ((((PriorityQueue.empty.update "a" 10).2.update "b" 20).2.next).2).stats.pools =
      (((((((PriorityQueue.empty.update "a" 10).2.update "b" 20).2.next).2).scores.filter
        (fun p => p.2 ≠ [])).length : Int)) :=
  stats_accurate (Reachable.next (Reachable.update "b" 20 (Reachable.update "a" 10
    Reachable.init)))

/-- Claim C5: `peek` returns exactly the id an immediately following `next`
would return, is a pure read (the dispatched PEEK command leaves the state
untouched, so repeated peeks agree), and returns `none` exactly when the
queue is empty. -/
theorem peek_next_agree {q : PriorityQueue} (h : Reachable q) :
    q.peek = (q.next).1
    ∧ (∀ u ver, (processCommand u ver Command.peek q).2 = q)
    ∧ (q.peek = none ↔ q.items = []) := by
  have hI := reachable_qinv h
  refine ⟨?_, fun u ver => rfl, ?_⟩
  · rcases hsc : q.scores with _ | ⟨⟨s, pool⟩, rest⟩
    · simp [PriorityQueue.peek, PriorityQueue.next, hsc]
    · rcases pool with _ | ⟨it, tail⟩ <;>
        simp [PriorityQueue.peek, PriorityQueue.next, hsc]
  · constructor
    · intro hp
      rcases hsc : q.scores with _ | ⟨⟨s, pool⟩, rest⟩
      · have hflat : flatPairs q.scores = [] := by rw [hsc]; rfl
        have hlen : q.items.length = 0 := by
          rw [← hI.perm.length_eq, hflat]
          rfl
        exact List.length_eq_zero.mp hlen
      · exfalso
        have hmem : (s, pool) ∈ q.scores := by rw [hsc]; exact List.mem_cons_self _ _
        have hnem := hI.poolsNonempty (s, pool) hmem
        rcases hpool : pool with _ | ⟨it, tail⟩
        · rw [hpool] at hnem
          exact hnem rfl
        · rw [hpool] at hsc
          simp [PriorityQueue.peek, hsc] at hp
    · intro hi
      rcases hsc : q.scores with _ | ⟨⟨s, pool⟩, rest⟩
      · simp [PriorityQueue.peek, hsc]
      · exfalso
        have hmem : (s, pool) ∈ q.scores := by rw [hsc]; exact List.mem_cons_self _ _
        have hnem := hI.poolsNonempty (s, pool) hmem
        rcases hpool : pool with _ | ⟨it, tail⟩
        · rw [hpool] at hnem
          exact hnem rfl
        · have hmemflat : (it, s) ∈ flatPairs q.scores := by
            rw [hsc, hpool]
            simp [flatPairs]
          have hmemitems : (it, s) ∈ q.items := hI.perm.mem_iff.mp hmemflat
          rw [hi] at hmemitems
          simp at hmemitems

/-- Witness for C5 at a concrete reachable state. -/
theorem peek_next_agree_witness :
    ((PriorityQueue.empty.update "x" 3).2).peek =
      (((PriorityQueue.empty.update "x" 3).2).next).1
    ∧ (processCommand 0 "" Command.peek ((PriorityQueue.empty.update "x" 3).2)).2 =
      (PriorityQueue.empty.update "x" 3).2
    ∧ (((PriorityQueue.empty.update "x" 3).2).peek = none ↔
      ((PriorityQueue.empty.update "x" 3).2).items = []) := by
  have h := peek_next_agree (Reachable.update "x" 3 Reachable.init)
  exact ⟨h.1, h.2.1 0 "", h.2.2⟩

/-- Claim C6: sentinel responses — NEXT and PEEK on an empty queue answer
with the item string `-1`, and SCORE on an absent id answers with the score
`-1`; all three render as `+-1` CRLF, never as an error line. -/
theorem sentinel_responses (u : Int) (ver : String) {q : PriorityQueue} (id : ItemId) :
    (q.scores = [] → processCommand u ver Command.next q = (Response.item "-1", q)
      ∧ processCommand u ver Command.peek q = (Response.item "-1", q))
    ∧ (q.score id = none →
      processCommand u ver (Command.score id) q = (Response.score (-1), q))
    ∧ renderResponse (Response.item "-1") = "+-1" ++ "\r\n"
    ∧ renderResponse (Response.score (-1)) = "+-1" ++ "\r\n" := by
  refine ⟨fun hsc => ⟨?_, ?_⟩, fun hid => ?_, by decide, by decide⟩
  · simp [processCommand, PriorityQueue.next, hsc]
  · simp [processCommand, PriorityQueue.peek, hsc]
  · simp [processCommand, hid]

/-- Witness for C6 on the fresh queue and an unknown id. -/
theorem sentinel_responses_witness :
    (processCommand 0 "" Command.next PriorityQueue.empty =
      (Response.item "-1", PriorityQueue.empty)
    ∧ processCommand 0 "" Command.peek PriorityQueue.empty =
      (Response.item "-1", PriorityQueue.empty))
    ∧ processCommand 0 "" (Command.score "ghost") PriorityQueue.empty =
      (Response.score (-1), PriorityQueue.empty)
    ∧ renderResponse (Response.item "-1") = "+-1" ++ "\r\n"
    ∧ renderResponse (Response.score (-1)) = "+-1" ++ "\r\n" := by
  have h := sentinel_responses (q := PriorityQueue.empty) 0 "" "ghost"
  exact ⟨h.1 rfl, h.2.1 (by decide), h.2.2.1, h.2.2.2⟩

/-- Claim C7: the parser realizes exactly the specification's table — the
verb is matched case-insensitively against the six verbs with their
arities, identifiers pass through verbatim, a bad UPDATE value yields the
`Invalid value for UPDATE` error command, any other mismatch the
`Invalid command or arguments` error command — and an error command is
dispatched to a normal error response rather than closing anything. -/
theorem parse_table_matches_spec :
    (∀ s, commandFrom s = specCommandOfLine (splitWhitespaceStr s))
    ∧ (∀ msg u ver q, processCommand u ver (Command.error msg) q =
        (Response.error msg, q)) :=
  ⟨fun s => commandFromTokens_eq_spec (splitWhitespaceStr s), fun _ _ _ _ => rfl⟩

/-- Claim C10: `next` on an empty queue is a no-op — it returns `none` and
leaves maps and all three counters exactly as they were, so a NEXT on a
fresh server cannot perturb a later INFO snapshot. -/
theorem next_empty_frame {q : PriorityQueue} (h : q.scores = []) :
    q.next = (none, q)
    ∧ (∀ u ver, processCommand u ver Command.next q = (Response.item "-1", q)) := by
  constructor
  · simp [PriorityQueue.next, h]
  · intro u ver
    simp [processCommand, PriorityQueue.next, h]

/-- Witness for C10 on the fresh queue. -/
theorem next_empty_frame_witness :
    PriorityQueue.empty.next = (none, PriorityQueue.empty)
    ∧ processCommand 0 "" Command.next PriorityQueue.empty =
      (Response.item "-1", PriorityQueue.empty) := by
  have h := next_empty_frame (q := PriorityQueue.empty) rfl
  exact ⟨h.1, h.2 0 ""⟩

/-- Claim C8, counterexample: the HELP response is CRLF-line structured but
its lines do not all carry a `+`/`-` status prefix (its first line starts
with `USAGE`). -/
theorem help_not_prefixed_cex :
    prefixedOk (renderResponse Response.help) = false
    ∧ (crlfSplit (renderResponse Response.help).toList).isSome = true :=
  ⟨by set_option maxRecDepth 10000 in decide, by set_option maxRecDepth 10000 in decide⟩

/-- Claim C8 (amended): every response, HELP included, consists solely of
CRLF-terminated lines (given that embedded payload strings are free of CR
and LF, as the server's identifiers, fixed messages and version string
are); and for every response other than HELP each line begins with the `+`
or `-` status prefix.  HELP violates the prefix rule. -/
theorem responses_crlf_lines (r : Response) (hp : payloadSafe r) :
    (∃ ls, crlfSplit (renderResponse r).toList = some ls ∧ ls ≠ [])
    ∧ (r ≠ Response.help → prefixedOk (renderResponse r) = true) := by
  cases r with
  | ok =>
    exact ⟨⟨[['+', 'O', 'K']], by decide, by decide⟩, fun _ => by decide⟩
  | score n =>
    have hsafe : '\r' ∉ ('+' :: intStrChars n) := by
      intro hmem
      rcases List.mem_cons.mp hmem with heq | hm
      · exact absurd heq (by decide)
      · exact (intStrChars_no_cr_lf n).1 hm
    have h0 : (renderResponse (Response.score n)).toList =
        ('+' :: intStrChars n) ++ '\r' :: '\n' :: [] := rfl
    have h1 : crlfSplit (renderResponse (Response.score n)).toList =
        some [('+' :: intStrChars n)] := by
      rw [h0]
      exact crlfSplit_line_cons hsafe rfl
    refine ⟨⟨_, h1, by simp⟩, fun _ => ?_⟩
    simp only [prefixedOk, h1]
    rfl
  | item s =>
    have hsafe : '\r' ∉ ('+' :: s.toList) := by
      intro hmem
      rcases List.mem_cons.mp hmem with heq | hm
      · exact absurd heq (by decide)
      · exact hp.1 hm
    have h0 : (renderResponse (Response.item s)).toList =
        ('+' :: s.toList) ++ '\r' :: '\n' :: [] := rfl
    have h1 : crlfSplit (renderResponse (Response.item s)).toList =
        some [('+' :: s.toList)] := by
      rw [h0]
      exact crlfSplit_line_cons hsafe rfl
    refine ⟨⟨_, h1, by simp⟩, fun _ => ?_⟩
    simp only [prefixedOk, h1]
    rfl
  | error msg =>
    have hsafe : '\r' ∉ ('-' :: msg.toList) := by
      intro hmem
      rcases List.mem_cons.mp hmem with heq | hm
      · exact absurd heq (by decide)
      · exact hp.1 hm
    have h0 : (renderResponse (Response.error msg)).toList =
        ('-' :: msg.toList) ++ '\r' :: '\n' :: [] := rfl
    have h1 : crlfSplit (renderResponse (Response.error msg)).toList =
        some [('-' :: msg.toList)] := by
      rw [h0]
      exact crlfSplit_line_cons hsafe rfl
    refine ⟨⟨_, h1, by simp⟩, fun _ => ?_⟩
    simp only [prefixedOk, h1]
    rfl
  | stats u ver up it po =>
    have hs1 : '\r' ∉ ("+INFO").toList := by decide
    have hs2 : '\r' ∉ (("+uptime:").toList ++ intStrChars u) := by
      intro hm
      rcases List.mem_append.mp hm with hc | hc
      · exact absurd hc (by decide)
      · exact (intStrChars_no_cr_lf u).1 hc
    have hs3 : '\r' ∉ (("+version:").toList ++ ver.toList) := by
      intro hm
      rcases List.mem_append.mp hm with hc | hc
      · exact absurd hc (by decide)
      · exact hp.1 hc
    have hs4 : '\r' ∉ (("+updates:").toList ++ intStrChars up) := by
      intro hm
      rcases List.mem_append.mp hm with hc | hc
      · exact absurd hc (by decide)
      · exact (intStrChars_no_cr_lf up).1 hc
    have hs5 : '\r' ∉ (("+items:").toList ++ intStrChars it) := by
      intro hm
      rcases List.mem_append.mp hm with hc | hc
      · exact absurd hc (by decide)
      · exact (intStrChars_no_cr_lf it).1 hc
    have hs6 : '\r' ∉ (("+pools:").toList ++ intStrChars po) := by
      intro hm
      rcases List.mem_append.mp hm with hc | hc
      · exact absurd hc (by decide)
      · exact (intStrChars_no_cr_lf po).1 hc
    have h0 : (renderResponse (Response.stats u ver up it po)).toList =
        ("+INFO").toList ++ '\r' :: '\n' ::
        ((("+uptime:").toList ++ intStrChars u) ++ '\r' :: '\n' ::
        ((("+version:").toList ++ ver.toList) ++ '\r' :: '\n' ::
        ((("+updates:").toList ++ intStrChars up) ++ '\r' :: '\n' ::
        ((("+items:").toList ++ intStrChars it) ++ '\r' :: '\n' ::
        ((("+pools:").toList ++ intStrChars po) ++ '\r' :: '\n' :: []))))) := by
      simp only [renderResponse, toList_append, intStr, List.append_assoc]
      rfl
    have h1 : crlfSplit (renderResponse (Response.stats u ver up it po)).toList =
        some [("+INFO").toList,
              ("+uptime:").toList ++ intStrChars u,
              ("+version:").toList ++ ver.toList,
              ("+updates:").toList ++ intStrChars up,
              ("+items:").toList ++ intStrChars it,
              ("+pools:").toList ++ intStrChars po] := by
      rw [h0]
      exact crlfSplit_line_cons hs1 (crlfSplit_line_cons hs2 (crlfSplit_line_cons hs3
        (crlfSplit_line_cons hs4 (crlfSplit_line_cons hs5 (crlfSplit_line_cons hs6 rfl)))))
    refine ⟨⟨_, h1, by simp⟩, fun _ => ?_⟩
    simp only [prefixedOk, h1]
    rfl
  | help =>
    have h1 : (crlfSplit (renderResponse Response.help).toList).isSome = true := by
      set_option maxRecDepth 10000 in decide
    have h2 : crlfSplit (renderResponse Response.help).toList ≠ some [] := by
      set_option maxRecDepth 10000 in decide
    rcases hs : crlfSplit (renderResponse Response.help).toList with _ | ls
    · rw [hs] at h1
      exact absurd h1 (by decide)
    · refine ⟨⟨ls, rfl, fun hnil => h2 ?_⟩, fun hne => absurd rfl hne⟩
      rw [hs, hnil]

/-- Witness for the amended C8 at a concrete response with payload. -/
theorem responses_crlf_lines_witness :
    (∃ ls, crlfSplit (renderResponse (Response.item "abc")).toList = some ls ∧ ls ≠ [])
    ∧ (Response.item "abc" ≠ Response.help →
      prefixedOk (renderResponse (Response.item "abc")) = true) :=
  responses_crlf_lines (Response.item "abc")
    (show lineSafe "abc" from ⟨by decide, by decide⟩)

/-- Claim C9: in every reachable state every stored pool is non-empty, so
the defensive empty-pool branch of `next` cannot run: whenever the by-score
map is non-empty, `next` pops an item. -/
theorem next_defensive_unreachable {q : PriorityQueue} (h : Reachable q) :
    (∀ p ∈ q.scores, p.2 ≠ [])
    ∧ (q.scores ≠ [] → ∃ i, (q.next).1 = some i) := by
  have hI := reachable_qinv h
  refine ⟨hI.poolsNonempty, fun hne => ?_⟩
  rcases hsc : q.scores with _ | ⟨⟨s, pool⟩, rest⟩
  · exact absurd hsc hne
  · have hmem : (s, pool) ∈ q.scores := by rw [hsc]; exact List.mem_cons_self _ _
    have hnem := hI.poolsNonempty (s, pool) hmem
    rcases hpool : pool with _ | ⟨it, tail⟩
    · rw [hpool] at hnem
      exact absurd rfl hnem
    · exact ⟨it, by simp [PriorityQueue.next, hsc, hpool]⟩

/-- Witness for C9 at a concrete reachable state. -/
theorem next_defensive_unreachable_witness :
    (∀ p ∈ ((PriorityQueue.empty.update "a" 7).2).scores, p.2 ≠ [])
    ∧ (((PriorityQueue.empty.update "a" 7).2).scores ≠ [] →
      ∃ i, (((PriorityQueue.empty.update "a" 7).2).next).1 = some i) :=
  next_defensive_unreachable (Reachable.update "a" 7 Reachable.init)
